import Mathlib

/-!
Verification development for the Terraform VPC security enhancer
(`scriptv3.py`).  The Python source is shallowly embedded as executable
Lean definitions:

* POSIX-ish paths (`pathlib.Path`) become `FsPath` (absolute flag plus a
  list of segments); `Path.resolve()` becomes `resolvePath` (lexical
  collapse of `.`/`..` against a current working directory, the way
  `resolve(strict=False)` behaves on a symlink-free tree);
* the file system that the script scans becomes an explicit `FileSystem`
  value (existing `.tf` files, existing directories, per-file parsed HCL);
* `networkx.DiGraph` with its string node keys becomes `Graph`
  (a list of node strings plus a list of directed edges, with the
  idempotent `add_node`/`add_edge` insertions of networkx);
* `TerraformEnhancer.build_dependency_graph`, `_process_module_list`,
  `_process_module_dict` and `_add_module_dependency` are translated
  statement by statement;
* `nx.descendants` (an external library call) is modelled from its
  documented contract - all nodes reachable from the source, excluding
  the source - as an iterated edge-relaxation whose correctness is proved;
* `count_tokens`, `generate_prompt` and `_truncate_context` are embedded
  over an abstract token counter and file reader (the `tiktoken`
  encoder and the real disk are external collaborators);
* `extract_file_content` with its two `re` grammars is embedded as an
  operational backtracking scanner faithful to `re.sub`/`findall`
  left-to-right non-overlapping semantics.
-/

/-! ## Python string primitives

`str.startswith`, `in`, `str.split` are embedded on the character lists
of the strings (the built-in `String` versions are position-based and do
not evaluate inside the kernel). -/

/-- Python `s.startswith(pre)`. -/
def pyStarts (s pre : String) : Bool := pre.data.isPrefixOf s.data

/-- Python `c in s` for a single character. -/
def pyContains (s : String) (c : Char) : Bool := s.data.contains c

/-- Split on a single separator character (`str.split(sep)` /
`pathlib`'s component splitting). -/
def splitOnChar (sep : Char) : List Char → List (List Char)
  | [] => [[]]
  | c :: rest =>
    match splitOnChar sep rest with
    | [] => [[]]
    | r :: rs => if c = sep then [] :: r :: rs else (c :: r) :: rs

/-- Python `s.split(pat)` for a non-empty separator string:
non-overlapping, scanning left to right (fuelled; every step consumes at
least one character, so `length + 1` fuel never runs out). -/
def splitOnListF (pat : List Char) : Nat → List Char → List (List Char)
  | _, [] => [[]]
  | 0, cs => [cs]
  | fuel + 1, c :: rest =>
    if pat.isPrefixOf (c :: rest) then
      [] :: splitOnListF pat fuel ((c :: rest).drop pat.length)
    else
      match splitOnListF pat fuel rest with
      | [] => [[c]]
      | r :: rs => (c :: r) :: rs

/-- Python `s.split(pat)` on strings. -/
def pySplit (s pat : String) : List String :=
  (splitOnListF pat.data (s.data.length + 1) s.data).map String.mk

/-! ## Path model -/

/-- A `pathlib` path: `absolute` says whether it starts at the root, and
`segs` are the (non-`.`/non-empty) components, as `pathlib` stores them. -/
structure FsPath where
  absolute : Bool
  segs : List String
deriving DecidableEq

/-- Render a path the way `str(Path(...))` does (`/`-joined, leading `/`
for absolute paths). Node identity in the Python graph is this string. -/
def pathStr (p : FsPath) : String :=
  (if p.absolute then "/" else "") ++ String.intercalate "/" p.segs

/-- Parse a path string the way `Path(s)` does: split on `/`, dropping
empty and `.` components. -/
def parsePathStr (s : String) : FsPath :=
  ⟨pyStarts s "/",
   ((splitOnChar '/' s.data).map String.mk).filter (fun t => t ≠ "" && t ≠ ".")⟩

/-- Lexically collapse `.` and `..` components (what `Path.resolve()` does
on a tree without symlinks; `..` at the root stays at the root). -/
def resolveSegs (segs : List String) : List String :=
  segs.foldl (fun acc seg =>
    if seg = "." then acc
    else if seg = ".." then acc.dropLast
    else acc ++ [seg]) []

/-- `Path.resolve()`: make absolute against the working directory `cwd`
(itself absolute, given as segments) and collapse `.`/`..`. -/
def resolvePath (cwd : List String) (p : FsPath) : FsPath :=
  ⟨true, resolveSegs (if p.absolute then p.segs else cwd ++ p.segs)⟩

/-- Components a `/`-separated source string contributes when joined onto
a `Path` (`base / source`): split on `/`, dropping empty and `.` parts. -/
def parseRel (s : String) : List String :=
  ((splitOnChar '/' s.data).map String.mk).filter (fun t => t ≠ "" && t ≠ ".")

/-- `base / source` of `pathlib`: an absolute `source` replaces `base`,
otherwise the parsed components are appended. -/
def joinPath (base : FsPath) (s : String) : FsPath :=
  if pyStarts s "/" then ⟨true, parseRel s⟩
  else ⟨base.absolute, base.segs ++ parseRel s⟩

/-! ## File system and parsed HCL model -/

/-- The `"source"` attribute of one module config: `none` models a config
dict without a `"source"` key. -/
abbrev SourceAttr := Option String

/-- A value of the module dictionary that `hcl2` returns in dictionary
shape: either a config dict directly, or a list of config dicts (the
`isinstance(module_config, list)` case of `_process_module_dict`). -/
inductive ConfigVal where
  | plain (source : SourceAttr)
  | wrapped (cs : List SourceAttr)
deriving DecidableEq

/-- The two shapes `hcl2` may return for `data.get("module", {})`:
a list of single-entry dicts, or one dict of name -> config. -/
inductive HclModules where
  | hlist (mods : List (List (String × SourceAttr)))
  | hdict (mods : List (String × ConfigVal))
deriving DecidableEq

/-- The file tree the script scans.  `tfFiles` and `dirs` hold the
canonical (absolute, resolved) paths of the existing `.tf` files and
directories; `hcl` maps a file's canonical path to its parse result
(`none` inside the option value models a read or HCL parse error, which
the Python catches and turns into "this file contributes zero edges"). -/
structure FileSystem where
  cwd : List String
  tfFiles : List FsPath
  dirs : List FsPath
  hcl : List (FsPath × Option HclModules)

/-- `repo_root.glob("**/*.tf")`: every existing `.tf` file under `root`,
spelled as `root`'s own spelling extended by the relative remainder
(`pathlib` builds glob results on the root object, so a relative root
yields relative result paths). -/
def globTf (fs : FileSystem) (root : FsPath) : List FsPath :=
  let rootAbs := resolvePath fs.cwd root
  fs.tfFiles.filterMap (fun f =>
    if rootAbs.segs.isPrefixOf f.segs then
      some ⟨root.absolute, root.segs ++ f.segs.drop rootAbs.segs.length⟩
    else none)

/-- `module_path.glob("*.tf")` for a resolved directory path: the existing
`.tf` files whose parent is exactly that directory (results are spelled
on the resolved directory, i.e. canonically). -/
def globTfDirect (fs : FileSystem) (dir : FsPath) : List FsPath :=
  fs.tfFiles.filter (fun f => f.segs.dropLast = dir.segs)

/-- Substring test (Python's `"x" in s`), on character lists. -/
def hasSub (pat : List Char) : List Char → Bool
  | [] => pat.isEmpty
  | c :: rest => pat.isPrefixOf (c :: rest) || hasSub pat rest

/-! ## Dependency graph (networkx `DiGraph` with string node keys) -/

/-- A directed graph over string node identities, exactly as networkx
keys it: nodes are the literal path strings handed to `add_node`. -/
structure Graph where
  nodes : List String
  edges : List (String × String)
deriving DecidableEq

/-- `graph.add_node`: idempotent node insertion. -/
def addNode (g : Graph) (n : String) : Graph :=
  if n ∈ g.nodes then g else { g with nodes := g.nodes ++ [n] }

/-- `graph.add_edge`: inserts both endpoints as nodes, then the edge;
idempotent in both. -/
def addEdge (g : Graph) (a b : String) : Graph :=
  let g := addNode (addNode g a) b
  if (a, b) ∈ g.edges then g else { g with edges := g.edges ++ [(a, b)] }

/-- `TerraformEnhancer._add_module_dependency`: classify the source string
(`source.startswith(".") or not (source.startswith("git::") or ":" in
source)` means "local"), join it onto the referencing file's directory,
resolve, and if the result is an existing directory add one edge per
direct `.tf` file; the `elif source == "../../" or source == "../"`
branch of the source is kept verbatim (it globs the same resolved path). -/
def add_module_dependency (fs : FileSystem) (g : Graph) (source : String)
    (tf : FsPath) (fp : String) : Graph :=
  if pyStarts source "." || !(pyStarts source "git::" || pyContains source ':') then
    let baseDir : FsPath := ⟨tf.absolute, tf.segs.dropLast⟩
    let modulePath := resolvePath fs.cwd (joinPath baseDir source)
    if modulePath ∈ fs.dirs then
      (globTfDirect fs modulePath).foldl (fun g m => addEdge g fp (pathStr m)) g
    else if source = "../../" || source = "../" then
      (globTfDirect fs modulePath).foldl (fun g m => addEdge g fp (pathStr m)) g
    else g
  else g

/-- `TerraformEnhancer._process_module_list`: the list-of-dicts shape; a
declaration without a `"source"` key is skipped (`if "source" in
module_config`). -/
def process_module_list (fs : FileSystem) (g : Graph)
    (mods : List (List (String × SourceAttr))) (tf : FsPath) (fp : String) : Graph :=
  mods.foldl (fun g md =>
    md.foldl (fun g nmcfg =>
      match nmcfg.2 with
      | some source => add_module_dependency fs g source tf fp
      | none => g) g) g

/-- `TerraformEnhancer._process_module_dict`: the dict shape; a non-empty
list value is unwrapped to its first element, and the source defaults to
`""` (`module_config.get("source", "")`).  An empty list value raises
`AttributeError` in Python, which aborts the rest of this file's modules
while keeping the edges already inserted - modelled by returning `g`. -/
def process_module_dict (fs : FileSystem) (g : Graph)
    (mods : List (String × ConfigVal)) (tf : FsPath) (fp : String) : Graph :=
  match mods with
  | [] => g
  | (_, cfg) :: rest =>
    match cfg with
    | .plain src =>
      process_module_dict fs (add_module_dependency fs g (src.getD "") tf fp) rest tf fp
    | .wrapped (c :: _) =>
      process_module_dict fs (add_module_dependency fs g (c.getD "") tf fp) rest tf fp
    | .wrapped [] => g

/-- One iteration of the scan loop of `build_dependency_graph`: add the
node unconditionally, then parse and process its module declarations; a
read or parse error contributes zero edges.  An empty-list `module`
value takes the dict branch in Python and immediately raises (caught),
which also contributes zero edges, so `hlist []` and a parse error
agree with the source's observable behaviour. -/
def processFile (fs : FileSystem) (g : Graph) (tf : FsPath) : Graph :=
  let fp := pathStr tf
  let g := addNode g fp
  match (fs.hcl.lookup (resolvePath fs.cwd tf)).join with
  | none => g
  | some (.hlist mods) => process_module_list fs g mods tf fp
  | some (.hdict mods) => process_module_dict fs g mods tf fp

/-- `TerraformEnhancer.build_dependency_graph`: glob every `.tf` file
under `target_dir`, skip paths containing `.terraform` or any hidden
component, and process the rest. -/
def build_dependency_graph (fs : FileSystem) (target_dir : FsPath) : Graph :=
  (globTf fs target_dir).foldl (fun g tf =>
    if hasSub ".terraform".data (pathStr tf).data
        || tf.segs.any (fun p => pyStarts p ".") then g
    else processFile fs g tf) ⟨[], []⟩

/-- What the operating system does with a node's string when the file is
actually opened: parse it as a path and resolve it against the working
directory.  Two node strings denote the same file exactly when their
denotations agree. -/
def denote (fs : FileSystem) (s : String) : FsPath :=
  resolvePath fs.cwd (parsePathStr s)

/-! ## Reachability (`get_relevant_files` / `nx.descendants`)

`get_relevant_files` delegates to the external library call
`nx.descendants(graph, entry)`, documented as "all nodes reachable from
the source, excluding the source itself".  It is modelled as an iterated
one-step edge relaxation run until a fixpoint must have been reached
(`edges.length + 1` rounds suffice), and that model is proved to compute
exactly the reflexive-transitive closure minus the entry. -/

section Reachability

variable {α : Type} [DecidableEq α]

/-- One relaxation round: add the target of every edge whose source is
already in the set. -/
def succStep (edges : List (α × α)) (s : Finset α) : Finset α :=
  edges.foldr (fun p acc => if p.1 ∈ s then insert p.2 acc else acc) s

/-- All nodes reachable from `e` (including `e`): relax `edges.length + 1`
times starting from `{e}`; by then a fixpoint has been reached. -/
def reachIter (edges : List (α × α)) (e : α) : Finset α :=
  (succStep edges)^[edges.length + 1] {e}

/-- Model of `nx.descendants`: the reachable set without the source. -/
def descendants (edges : List (α × α)) (e : α) : Finset α :=
  (reachIter edges e).erase e

/-- `TerraformEnhancer.get_relevant_files`: empty set for an entry absent
from the graph, otherwise the descendants of the entry. -/
def get_relevant_files (nodes : List α) (edges : List (α × α)) (e : α) : Finset α :=
  if e ∈ nodes then descendants edges e else ∅

/-- Transitive reachability along the directed edges (reflexive at `e`). -/
inductive Reach (edges : List (α × α)) (e : α) : α → Prop
  | refl : Reach edges e e
  | tail {y z : α} : Reach edges e y → (y, z) ∈ edges → Reach edges e z

end Reachability

/-! ## Token counting (`count_tokens`) -/

/-- `TerraformEnhancer.count_tokens`: `self.encoding` is either a working
`tiktoken` encoder (an external collaborator, abstracted as a function)
or `None`, in which case the fallback `len(text) // 4` is used.  Python's
`len` on a `str` counts Unicode code points, which `String.length` also
does. -/
def count_tokens (encoding : Option (String → Nat)) (text : String) : Nat :=
  match encoding with
  | some enc => enc text
  | none => text.length / 4

/-- The length of a string in bytes under UTF-8 (what `len` would return
on the *encoded* text, as opposed to Python's code-point count). -/
def utf8Len (s : String) : Nat :=
  (s.data.map Char.utf8Size).sum

/-! ## Context assembly (`generate_prompt` / `_truncate_context`)

The token counter (tiktoken or the fallback) and the disk are external
collaborators, so the assembly logic is embedded over an abstract
context: a counting strategy, an `is_file` test and a reader. -/

/-- The external collaborators `generate_prompt` and `_truncate_context`
use: the token-counting strategy in effect, `Path.is_file`, and
`open(...).read()` (`none` models a read failure, caught and skipped). -/
structure PromptCtx where
  countTokens : String → Nat
  isFile : String → Bool
  readFile : String → Option String

/-- Python's `\s` / `str.strip` whitespace characters. -/
def isPyWs (c : Char) : Bool :=
  c = ' ' || c = '\t' || c = '\n' || c = '\r' || c = '\x0b' || c = '\x0c'

/-- `str.strip()`: drop whitespace from both ends (character lists). -/
def trimWs (cs : List Char) : List Char :=
  ((cs.dropWhile isPyWs).reverse.dropWhile isPyWs).reverse

/-- `str.strip()` on strings. -/
def pyStrip (s : String) : String := ⟨trimWs s.data⟩

/-- The labelled block `f"FILE: {path}\n{content}\n"` both assembly
loops build for one file. -/
def fileBlock (p content : String) : String :=
  "FILE: " ++ p ++ "\n" ++ content ++ "\n"

/-- One iteration of both assembly loops: skip a non-file, skip a read
error, skip whitespace-only content, otherwise yield the labelled
block. -/
def readBlock (ctx : PromptCtx) (p : String) : Option String :=
  if ctx.isFile p then
    match ctx.readFile p with
    | some content => if pyStrip content ≠ "" then some (fileBlock p content) else none
    | none => none
  else none

/-- The accumulator of `_truncate_context`: `truncated_context`,
`current_tokens` and `files_included`. -/
structure TruncState where
  blocks : List String
  tokens : Nat
  count : Nat
deriving DecidableEq

/-- The body shared by both loops of `_truncate_context`: include a
renderable file's block only when the running total stays within the
hard limit of 70000 tokens; keep walking the remaining files either
way. -/
def truncLoop (ctx : PromptCtx) : TruncState → List String → TruncState
  | st, [] => st
  | st, p :: rest =>
    match readBlock ctx p with
    | none => truncLoop ctx st rest
    | some b =>
      let t := ctx.countTokens b
      if st.tokens + t ≤ 70000 then
        truncLoop ctx ⟨st.blocks ++ [b], st.tokens + t, st.count + 1⟩ rest
      else truncLoop ctx st rest

/-- `TerraformEnhancer._truncate_context` up to its final join: the
priority pass over `[entry]` followed by the pass over the remaining
files, sharing one running state. -/
def truncStateOf (ctx : PromptCtx) (files_to_read : List String) (entry : String) :
    TruncState :=
  truncLoop ctx (truncLoop ctx ⟨[], 0, 0⟩ [entry])
    (files_to_read.filter (fun f => f ≠ entry))

/-- `TerraformEnhancer._truncate_context`: the joined truncated context. -/
def truncate_context (ctx : PromptCtx) (files_to_read : List String) (entry : String) :
    String :=
  String.intercalate "\n" (truncStateOf ctx files_to_read entry).blocks

/-- The fixed instruction template of `generate_prompt`, with
`{entry_point}` and `{combined_context}` interpolated. -/
def promptInstr (entry combined : String) : String :=
  "\nYou are a Terraform expert. Update the VPC configuration in " ++ entry ++
  " \nto add security configurations including:\n" ++
  "1. Network ACLs with strict inbound/outbound rules\n" ++
  "2. Flow logs for VPC traffic monitoring to CloudWatch\n" ++
  "3. Security Group enhancements with least privilege access\n" ++
  "4. Encryption for S3 endpoints and any other relevant services\n" ++
  "5. VPC Endpoint policies with proper restrictions\n\n" ++
  "IMPORTANT: Format your response as follows:\n" ++
  "- For each file you modify, include the filename preceded by \"FILE: \"\n" ++
  "- Example: \"FILE: main.tf\"\n" ++
  "- Then provide the complete file content with your security enhancements\n" ++
  "- DO NOT include markdown code block markers\n" ++
  "- DO NOT include any explanatory text outside the actual code\n" ++
  "- Include ALL necessary code for each file, not just the changes\n" ++
  "- The content must be valid Terraform syntax that can be directly saved to .tf files\n\n" ++
  "Only modify AWS resources, keeping the existing structure and module usage patterns.\n\n" ++
  "Current code context:\n" ++ combined ++ "\n"

/-- `TerraformEnhancer.generate_prompt`: assemble every renderable block;
when the estimate of the joined context exceeds the soft limit of 80000
re-assemble through `_truncate_context` and recompute the inclusion
count by splitting the truncated context on the `FILE:` marker; returns
`(prompt, token_count, files_included)`. -/
def generate_prompt (ctx : PromptCtx) (entry : String) (relevant : List String) :
    String × Nat × Nat :=
  let files_to_read := entry :: relevant
  let blocks := files_to_read.filterMap (readBlock ctx)
  let combined := String.intercalate "\n" blocks
  let token_estimate := ctx.countTokens combined
  let pair :=
    if token_estimate > 80000 then
      let t := truncate_context ctx files_to_read entry
      (t, (pySplit t "FILE:").length - 1)
    else (combined, blocks.length)
  let prompt := promptInstr entry pair.1
  (prompt, ctx.countTokens prompt, pair.2)

/-! Spec-side description of the truncation policy ("best effort fill"):
walk the blocks in priority order with a running total, keeping a block
exactly when it fits under the hard limit, and still attempting every
later block after a skip.  The claims compare `_truncate_context`
against this. -/

/-- Best-effort greedy fill over `(block, tokens)` pairs: the blocks kept. -/
def greedyFill (limit : Nat) : Nat → List (String × Nat) → List String
  | _, [] => []
  | acc, bt :: rest =>
    if acc + bt.2 ≤ limit then bt.1 :: greedyFill limit (acc + bt.2) rest
    else greedyFill limit acc rest

/-- Best-effort greedy fill: the final running token total. -/
def greedyTokens (limit : Nat) : Nat → List (String × Nat) → Nat
  | acc, [] => acc
  | acc, bt :: rest =>
    if acc + bt.2 ≤ limit then greedyTokens limit (acc + bt.2) rest
    else greedyTokens limit acc rest

/-- The renderable blocks of a path list, paired with their token counts. -/
def tokenBlocks (ctx : PromptCtx) (ps : List String) : List (String × Nat) :=
  (ps.filterMap (readBlock ctx)).map (fun b => (b, ctx.countTokens b))

/-! ## Response extraction (`extract_file_content`)

The two `re.sub` calls and two `re.findall` grammars are embedded as
operational scanners with the exact left-to-right, non-overlapping,
backtracking behaviour of the Python `re` module on these particular
patterns (derived pattern by pattern in the comments below).  The
recursions that do not consume their list structurally carry a fuel
argument initialised to `length + 1`; every recursive call drops at
least one character, so the fuel never runs out. -/

/-- Three backticks at the head of the list (`'\x60'` is the backtick). -/
def isT3 : List Char → Bool
  | a :: b :: c :: _ => a = '\x60' && b = '\x60' && c = '\x60'
  | _ => false

/-- `re.sub(r'```', '', text)`: delete every occurrence of three
backticks, scanning left to right without overlap; on a non-match the
scan advances one character. -/
def stripTicks : List Char → List Char
  | [] => []
  | [c] => [c]
  | [c, d] => [c, d]
  | c :: d :: e :: t =>
    if c = '\x60' && d = '\x60' && e = '\x60' then stripTicks t
    else c :: stripTicks (d :: e :: t)

/-- Literal-prefix test, one character at a time (the characters of the
first list, in order, at the head of the second). -/
def tagChars : List Char → List Char → Bool
  | [], _ => true
  | _ :: _, [] => false
  | p :: ps, c :: cs => c = p && tagChars ps cs

/-- Does the text begin with `terraform` and a newline? -/
def tagTerraform (cs : List Char) : Bool := tagChars "terraform\n".data cs

/-- Does the text begin with `hcl` and a newline? -/
def tagHcl (cs : List Char) : Bool := tagChars "hcl\n".data cs

/-- Does the text begin with `tf` and a newline? -/
def tagTf (cs : List Char) : Bool := tagChars "tf\n".data cs

/-- Does the text begin with a newline (the no-tag fence opener)? -/
def tagNl (cs : List Char) : Bool := tagChars "\n".data cs

/-- `re.sub(r'```(?:terraform|hcl|tf)?\n', '', text)`: at a triple
backtick, try the alternatives in the regex's order (`terraform`, `hcl`,
`tf`, empty) each followed by the mandatory newline; on a full match
delete it and continue after it, otherwise emit one character and
rescan (what `re.sub` does when the match attempt at a position fails). -/
def stripTagFenceF : Nat → List Char → List Char
  | 0, cs => cs
  | _ + 1, [] => []
  | fuel + 1, c :: rest =>
    if isT3 (c :: rest) then
      let t := rest.drop 2
      if tagTerraform t then stripTagFenceF fuel (t.drop 10)
      else if tagHcl t then stripTagFenceF fuel (t.drop 4)
      else if tagTf t then stripTagFenceF fuel (t.drop 3)
      else if tagNl t then stripTagFenceF fuel (t.drop 1)
      else c :: stripTagFenceF fuel rest
    else c :: stripTagFenceF fuel rest

/-- First `re.sub` of `extract_file_content`, with its fuel filled in. -/
def stripTagFence (cs : List Char) : List Char := stripTagFenceF (cs.length + 1) cs

/-- Lines 732-733 of the source: the two cleaning substitutions. -/
def cleanResponse (s : String) : String := ⟨stripTicks (stripTagFence s.data)⟩

/-- Does a triple backtick occur anywhere in the text? -/
def hasTicks : List Char → Bool
  | [] => false
  | c :: rest => isT3 (c :: rest) || hasTicks rest

/-- The regex fragment `\s*\n`: greedy whitespace then a newline, which
backtracks to consuming exactly through the *last* newline of the
leading whitespace run; fails when that run holds no newline. -/
def wsNlConsume (cs : List Char) : Option (List Char) :=
  let w := cs.takeWhile isPyWs
  let tr := w.reverse.takeWhile (fun c => c ≠ '\n')
  if tr.length = w.length then none
  else some (cs.drop (w.length - tr.length))

/-- The lazy group of `FILE:\s+(.+?\.tf)\s*\n` (with `re.DOTALL`): grow
the group one character at a time (at least one), and at each size try
the literal `.tf` followed by `\s*\n`; the first success wins.  Returns
the captured filename (group text including `.tf`) and the text after
the consumed newline. -/
def fnFind : List Char → List Char → Option (List Char × List Char)
  | _, [] => none
  | pre, c :: cs =>
    if ".tf".data.isPrefixOf cs then
      match wsNlConsume (cs.drop 3) with
      | some rest => some ((c :: pre).reverse ++ ".tf".data, rest)
      | none => fnFind (c :: pre) cs
    else fnFind (c :: pre) cs

/-- The `\s+` before the filename: greedy, so try the maximal whitespace
run first and backtrack one character at a time down to one. -/
def primWsTry (cs : List Char) : Nat → Option (List Char × List Char)
  | 0 => none
  | j + 1 =>
    match fnFind [] (cs.drop (j + 1)) with
    | some r => some r
    | none => primWsTry cs j

/-- Match `\s+(.+?\.tf)\s*\n` directly after a `FILE:` marker. -/
def primAfterMarker (cs : List Char) : Option (List Char × List Char) :=
  primWsTry cs (cs.takeWhile isPyWs).length

/-- The lazy content group `(.*?)(?=FILE:|$)` (with `re.DOTALL`, without
`re.MULTILINE`): stop at the first position where `FILE:` starts, at the
end of text, or just before a final trailing newline (`$`).  Returns the
content and the remaining text from the stop position. -/
def takeContent : List Char → List Char × List Char
  | [] => ([], [])
  | c :: rest =>
    if "FILE:".data.isPrefixOf (c :: rest) then ([], c :: rest)
    else if c = '\n' && rest = [] then ([], [c])
    else
      let p := takeContent rest
      (c :: p.1, p.2)

/-- `re.findall(r'FILE:\s+(.+?\.tf)\s*\n(.*?)(?=FILE:|$)', text,
re.DOTALL)`: scan left to right; at each `FILE:` attempt the full match
and either emit the two groups and continue after the match, or advance
one character. -/
def primScanF : Nat → List Char → List (List Char × List Char)
  | 0, _ => []
  | _ + 1, [] => []
  | fuel + 1, c :: rest =>
    if "FILE:".data.isPrefixOf (c :: rest) then
      match primAfterMarker ((c :: rest).drop 5) with
      | some fr =>
        let p := takeContent fr.2
        (fr.1, p.1) :: primScanF fuel p.2
      | none => primScanF fuel rest
    else primScanF fuel rest

/-- The primary grammar, with its fuel filled in. -/
def primScan (cs : List Char) : List (List Char × List Char) :=
  primScanF (cs.length + 1) cs

/-- A character allowed inside the fallback filename (`[^:\n]`). -/
def notColonNl (c : Char) : Bool := c != ':' && c != '\n'

/-- The fallback header `([^:\n]+\.tf)\s*[:]\s*\n`: the greedy
`[^:\n]+` backtracks from the longest candidate group (ending `.tf`,
at least four characters) down; after the group, greedy `\s*` must be
followed by the colon (so the colon must sit directly after the maximal
whitespace run), and then `\s*\n` runs as usual.  Returns the captured
filename and the text after the consumed newline. -/
def hmTryJ (cs : List Char) : Nat → Option (List Char × List Char)
  | 0 => none
  | j + 1 =>
    let attempt : Option (List Char × List Char) :=
      if 4 ≤ j + 1 && ".tf".data.isSuffixOf (cs.take (j + 1)) then
        let rest := cs.drop (j + 1)
        let w2 := rest.takeWhile isPyWs
        match rest.drop w2.length with
        | ':' :: r3 =>
          match wsNlConsume r3 with
          | some r => some (cs.take (j + 1), r)
          | none => none
        | _ => none
      else none
    match attempt with
    | some r => some r
    | none => hmTryJ cs j

/-- Try the fallback header at the current position. -/
def headerMatch (cs : List Char) : Option (List Char × List Char) :=
  hmTryJ cs (cs.takeWhile notColonNl).length

/-- The fallback content group `(.*?)(?=\n[^:\n]+\.tf\s*[:]\s*\n|$)`:
stop at the first newline followed by another fallback header, at the
end of text, or just before a final trailing newline. -/
def fbTakeContent : List Char → List Char × List Char
  | [] => ([], [])
  | c :: rest =>
    if c = '\n' && (headerMatch rest).isSome then ([], c :: rest)
    else if c = '\n' && rest = [] then ([], [c])
    else
      let p := fbTakeContent rest
      (c :: p.1, p.2)

/-- A full fallback match at the current position: header then content. -/
def fbHere (cs : List Char) : Option (List Char × List Char × List Char) :=
  match headerMatch cs with
  | some pr =>
    let c := fbTakeContent pr.2
    some (pr.1, c.1, c.2)
  | none => none

/-- `re.findall(r'(?:^|\n)([^:\n]+\.tf)\s*[:]\s*\n(.*?)(?=...|$)', text,
re.DOTALL)`: the anchor `(?:^|\n)` matches at the start of the string
(consuming nothing) or consumes a newline; on failure the scan advances
one character. -/
def fbScanF : Nat → Bool → List Char → List (List Char × List Char)
  | 0, _, _ => []
  | fuel + 1, isStart, cs =>
    match (if isStart then fbHere cs else none) with
    | some pcr => (pcr.1, pcr.2.1) :: fbScanF fuel false pcr.2.2
    | none =>
      match cs with
      | [] => []
      | ch :: rest =>
        if ch = '\n' then
          match fbHere rest with
          | some pcr => (pcr.1, pcr.2.1) :: fbScanF fuel false pcr.2.2
          | none => fbScanF fuel false rest
        else fbScanF fuel false rest

/-- The fallback grammar, with its fuel filled in. -/
def fbScan (cs : List Char) : List (List Char × List Char) :=
  fbScanF (cs.length + 1) true cs

/-- Python `dict` assignment `d[k] = v`: overwrite in place if the key
exists (keeping its position), else append. -/
def dictInsert (m : List (String × String)) (k v : String) :
    List (String × String) :=
  if m.any (fun p => p.1 = k) then
    m.map (fun p => if p.1 = k then (k, v) else p)
  else m ++ [(k, v)]

/-- `os.path.basename` on POSIX: the part after the last `/` (a
backslash is not a separator there, so it is left alone). -/
def baseAfterSlash (cs : List Char) : List Char :=
  (cs.reverse.takeWhile (fun c => c != '/')).reverse

/-- What `extract_file_content` produces: the filename-to-content
mapping, and the raw response preserved for diagnostics exactly when
the mapping came out empty (the `claude_response.txt` debug write). -/
structure ExtractResult where
  files : List (String × String)
  debugSaved : Option String
deriving DecidableEq

/-- The body of the per-match loop of `extract_file_content`: strip the
filename, keep only its basename when it holds a separator, strip the
content, and assign into the dictionary.  The "looks like valid
Terraform" regex check of the source only emits a log warning and never
alters the mapping, so it has no observable effect here. -/
def extractStep (m : List (String × String)) (fc : List Char × List Char) :
    List (String × String) :=
  let fn := trimWs fc.1
  let fn := if fn.contains '/' || fn.contains '\\' then baseAfterSlash fn else fn
  dictInsert m ⟨fn⟩ ⟨trimWs fc.2⟩

/-- `TerraformEnhancer.extract_file_content`: clean the markdown fences,
run the primary grammar, fall back to the path-colon grammar when it
found nothing, then strip and flatten each captured pair into the
mapping (last occurrence of a filename wins); on an empty mapping the
raw response is preserved verbatim for diagnostics. -/
def extract_file_content (response : String) : ExtractResult :=
  let cleaned := (cleanResponse response).data
  let primary := primScan cleaned
  let fmatches := if primary.isEmpty then fbScan cleaned else primary
  let files := fmatches.foldl extractStep []
  { files := files
  , debugSaved := if files.isEmpty then some response else none }

/-! ## Concrete instances used by the claim theorems

Small, fully explicit file systems and assembly contexts on which the
embedded functions are evaluated. -/

/-- A tree scanned from a *relative* `target_dir` spelling `repo` (the
script's default `target_dir` is the relative `terraform-aws-vpc`):
`/home/repo/main.tf` references the module directory `modules/x`. -/
def fsRel : FileSystem :=
  { cwd := ["home"]
  , tfFiles := [⟨true, ["home", "repo", "main.tf"]⟩,
                ⟨true, ["home", "repo", "modules", "x", "a.tf"]⟩]
  , dirs := [⟨true, ["home"]⟩, ⟨true, ["home", "repo"]⟩,
             ⟨true, ["home", "repo", "modules"]⟩,
             ⟨true, ["home", "repo", "modules", "x"]⟩]
  , hcl := [(⟨true, ["home", "repo", "main.tf"]⟩,
             some (.hdict [("m", .plain (some "modules/x"))])),
            (⟨true, ["home", "repo", "modules", "x", "a.tf"]⟩,
             some (.hdict []))] }

/-- The graph the script builds on `fsRel` from the relative root. -/
def graphRel : Graph := build_dependency_graph fsRel ⟨false, ["repo"]⟩

/-- A tree holding a local directory whose path spells like a Terraform
registry identifier (`terraform-aws-modules/vpc/aws`). -/
def fsReg : FileSystem :=
  { cwd := []
  , tfFiles := [⟨true, ["r", "main.tf"]⟩,
                ⟨true, ["r", "terraform-aws-modules", "vpc", "aws", "m.tf"]⟩]
  , dirs := [⟨true, ["r"]⟩, ⟨true, ["r", "terraform-aws-modules"]⟩,
             ⟨true, ["r", "terraform-aws-modules", "vpc"]⟩,
             ⟨true, ["r", "terraform-aws-modules", "vpc", "aws"]⟩]
  , hcl := [] }

/-- A tree with `/r/app/main.tf` referencing `../modules/x`, an existing
directory holding exactly two `.tf` files. -/
def fsLoc : FileSystem :=
  { cwd := []
  , tfFiles := [⟨true, ["r", "app", "main.tf"]⟩,
                ⟨true, ["r", "modules", "x", "a.tf"]⟩,
                ⟨true, ["r", "modules", "x", "b.tf"]⟩]
  , dirs := [⟨true, ["r"]⟩, ⟨true, ["r", "app"]⟩,
             ⟨true, ["r", "modules"]⟩, ⟨true, ["r", "modules", "x"]⟩]
  , hcl := [] }

/-- A two-file tree: `/r/main.tf` (the referencing file) and
`/r/other.tf` side by side in the directory `/r`. -/
def fsTwo : FileSystem :=
  { cwd := []
  , tfFiles := [⟨true, ["r", "main.tf"]⟩, ⟨true, ["r", "other.tf"]⟩]
  , dirs := [⟨true, ["r"]⟩]
  , hcl := [] }

/-- The referencing file of `fsTwo`. -/
def mainTwo : FsPath := ⟨true, ["r", "main.tf"]⟩

/-- A one-file tree scanned from an absolute, already-resolved root. -/
def fsAbs : FileSystem :=
  { cwd := []
  , tfFiles := [⟨true, ["r", "main.tf"]⟩]
  , dirs := [⟨true, ["r"]⟩]
  , hcl := [(⟨true, ["r", "main.tf"]⟩, some (.hdict []))] }

/-- A token counter for the budget scenarios: every occurrence of `q`
costs `k` tokens, everything else is free (so the counter is additive
over the `\n`-joins the assembly performs). -/
def qCount (k : Nat) (s : String) : Nat := s.data.count 'q' * k

/-- The three-file budget scenario of the spec: entry and two candidate
files, each rendering to a block estimated at 30000 tokens. -/
def ctxBudget : PromptCtx :=
  { countTokens := qCount 30000
  , isFile := fun p => p = "/e.tf" || p = "/f2.tf" || p = "/f3.tf"
  , readFile := fun p =>
      if p = "/e.tf" || p = "/f2.tf" || p = "/f3.tf" then some "q" else none }

/-- A four-file budget scenario: three 30000-token files followed by a
10000-token file, so the third is skipped but the fourth still fits. -/
def ctxSkip : PromptCtx :=
  { countTokens := qCount 10000
  , isFile := fun p => p = "/e.tf" || p = "/f2.tf" || p = "/f3.tf" || p = "/f4.tf"
  , readFile := fun p =>
      if p = "/f4.tf" then some "q"
      else if p = "/e.tf" || p = "/f2.tf" || p = "/f3.tf" then some "qqq"
      else none }

/-- The three-file scenario again, but the entry file's content itself
contains the text `FILE:`, which the truncation path's recomputed
inclusion count miscounts. -/
def ctxMarker : PromptCtx :=
  { countTokens := qCount 30000
  , isFile := fun p => p = "/e.tf" || p = "/f2.tf" || p = "/f3.tf"
  , readFile := fun p =>
      if p = "/e.tf" then some "qFILE: z"
      else if p = "/f2.tf" || p = "/f3.tf" then some "q"
      else none }

/-- An assembly context with no readable files at all. -/
def ctxNone : PromptCtx :=
  { countTokens := fun _ => 0, isFile := fun _ => false, readFile := fun _ => none }

/-! ## Helper lemmas -/

section ReachabilityProofs

variable {α : Type} [DecidableEq α]

theorem mem_succStep {edges : List (α × α)} {s : Finset α} {x : α} :
    x ∈ succStep edges s ↔ x ∈ s ∨ ∃ a, (a, x) ∈ edges ∧ a ∈ s := by
  induction edges with
  | nil => simp [succStep]
  | cons p rest ih =>
    simp only [succStep, List.foldr_cons] at *
    by_cases h : p.1 ∈ s
    · simp only [if_pos h, Finset.mem_insert, ih, List.mem_cons]
      constructor
      · rintro (rfl | hx | ⟨a, ha, has⟩)
        · exact Or.inr ⟨p.1, Or.inl (by simp), h⟩
        · exact Or.inl hx
        · exact Or.inr ⟨a, Or.inr ha, has⟩
      · rintro (hx | ⟨a, (heq | ha), has⟩)
        · exact Or.inr (Or.inl hx)
        · subst heq; exact Or.inl rfl
        · exact Or.inr (Or.inr ⟨a, ha, has⟩)
    · simp only [if_neg h, ih, List.mem_cons]
      constructor
      · rintro (hx | ⟨a, ha, has⟩)
        · exact Or.inl hx
        · exact Or.inr ⟨a, Or.inr ha, has⟩
      · rintro (hx | ⟨a, (heq | ha), has⟩)
        · exact Or.inl hx
        · subst heq; exact absurd has h
        · exact Or.inr ⟨a, ha, has⟩

theorem subset_succStep (edges : List (α × α)) (s : Finset α) :
    s ⊆ succStep edges s :=
  fun _ hx => mem_succStep.mpr (Or.inl hx)

theorem succStep_fix_iterate {edges : List (α × α)} {s : Finset α}
    (h : succStep edges s = s) : ∀ k, (succStep edges)^[k] s = s := by
  intro k
  induction k with
  | zero => rfl
  | succ k ih => rw [Function.iterate_succ_apply', ih, h]

theorem reachIter_sound {edges : List (α × α)} {e : α} :
    ∀ k x, x ∈ (succStep edges)^[k] {e} → Reach edges e x := by
  intro k
  induction k with
  | zero => intro x hx; simp at hx; subst hx; exact Reach.refl
  | succ k ih =>
    intro x hx
    rw [Function.iterate_succ_apply'] at hx
    rcases mem_succStep.mp hx with hx | ⟨a, ha, has⟩
    · exact ih x hx
    · exact Reach.tail (ih a has) ha

theorem iterate_subset_bound {edges : List (α × α)} {e : α} :
    ∀ k, (succStep edges)^[k] {e} ⊆ insert e (edges.map Prod.snd).toFinset := by
  intro k
  induction k with
  | zero => intro x hx; simp at hx; simp [hx]
  | succ k ih =>
    intro x hx
    rw [Function.iterate_succ_apply'] at hx
    rcases mem_succStep.mp hx with hx | ⟨a, ha, _⟩
    · exact ih hx
    · simp only [Finset.mem_insert, List.mem_toFinset, List.mem_map]
      exact Or.inr ⟨(a, x), ha, rfl⟩

theorem reachIter_fixpoint (edges : List (α × α)) (e : α) :
    succStep edges (reachIter edges e) = reachIter edges e := by
  set N := edges.length + 1 with hN
  by_contra hne
  have hstrict : ∀ k, k ≤ N → succStep edges ((succStep edges)^[k] {e}) ≠ (succStep edges)^[k] {e} := by
    intro k hk hfix
    apply hne
    have hrest : (succStep edges)^[N - k] ((succStep edges)^[k] {e}) = (succStep edges)^[k] {e} :=
      succStep_fix_iterate hfix (N - k)
    have : (succStep edges)^[N] {e} = (succStep edges)^[k] {e} := by
      rw [← Nat.sub_add_cancel hk, Function.iterate_add_apply, hrest]
    rw [reachIter, this, hfix]
  have hcard : ∀ k, k ≤ N + 1 → k + 1 ≤ ((succStep edges)^[k] {e}).card := by
    intro k
    induction k with
    | zero => intro _; simp
    | succ k ih =>
      intro hk
      have hk' : k ≤ N := Nat.lt_succ_iff.mp hk
      have hsub : (succStep edges)^[k] {e} ⊂ (succStep edges)^[k + 1] {e} := by
        rw [Function.iterate_succ_apply']
        exact Finset.ssubset_iff_subset_ne.mpr
          ⟨subset_succStep edges _, fun h => hstrict k hk' h.symm⟩
      have := Finset.card_lt_card hsub
      have := ih (Nat.le_succ_of_le hk')
      omega
  have hbound := Finset.card_le_card (@iterate_subset_bound α _ edges e (N + 1))
  have h1 : (insert e (edges.map Prod.snd).toFinset).card ≤ edges.length + 1 := by
    calc (insert e (edges.map Prod.snd).toFinset).card
        ≤ (edges.map Prod.snd).toFinset.card + 1 := Finset.card_insert_le _ _
      _ ≤ (edges.map Prod.snd).length + 1 := by
          have := (edges.map Prod.snd).toFinset_card_le
          omega
      _ = edges.length + 1 := by rw [List.length_map]
  have h2 := hcard (N + 1) (le_refl _)
  omega

theorem reachIter_complete {edges : List (α × α)} {e x : α}
    (h : Reach edges e x) : x ∈ reachIter edges e := by
  induction h with
  | refl =>
    have : e ∈ ({e} : Finset α) := Finset.mem_singleton_self e
    have hsub : ∀ k, ({e} : Finset α) ⊆ (succStep edges)^[k] {e} := by
      intro k
      induction k with
      | zero => exact subset_rfl
      | succ k ih =>
        rw [Function.iterate_succ_apply']
        exact ih.trans (subset_succStep edges _)
    exact hsub (edges.length + 1) this
  | tail _ hedge ih =>
    have := mem_succStep.mpr (Or.inr ⟨_, hedge, ih⟩)
    rwa [reachIter_fixpoint] at this

theorem mem_descendants {edges : List (α × α)} {e x : α} :
    x ∈ descendants edges e ↔ Reach edges e x ∧ x ≠ e := by
  rw [descendants, Finset.mem_erase]
  constructor
  · rintro ⟨hne, hmem⟩
    exact ⟨reachIter_sound _ x hmem, hne⟩
  · rintro ⟨hr, hne⟩
    exact ⟨hne, reachIter_complete hr⟩

end ReachabilityProofs

theorem truncLoop_eq_greedy (ctx : PromptCtx) :
    ∀ (ps : List String) (st : TruncState),
      truncLoop ctx st ps =
        ⟨st.blocks ++ greedyFill 70000 st.tokens (tokenBlocks ctx ps),
         greedyTokens 70000 st.tokens (tokenBlocks ctx ps),
         st.count + (greedyFill 70000 st.tokens (tokenBlocks ctx ps)).length⟩ := by
  intro ps
  induction ps with
  | nil => intro st; simp [truncLoop, tokenBlocks, greedyFill, greedyTokens]
  | cons p rest ih =>
    intro st
    simp only [truncLoop, tokenBlocks, List.filterMap_cons]
    cases hrb : readBlock ctx p with
    | none => simpa [tokenBlocks] using ih st
    | some b =>
      simp only [List.map_cons, greedyFill, greedyTokens]
      by_cases hle : st.tokens + ctx.countTokens b ≤ 70000
      · rw [if_pos hle, if_pos hle, if_pos hle]
        rw [ih ⟨st.blocks ++ [b], st.tokens + ctx.countTokens b, st.count + 1⟩]
        simp [tokenBlocks, List.append_assoc]
        omega
      · rw [if_neg hle, if_neg hle, if_neg hle]
        simpa [tokenBlocks] using ih st

theorem greedyFill_append (limit : Nat) :
    ∀ (xs ys : List (String × Nat)) (acc : Nat),
      greedyFill limit acc (xs ++ ys) =
        greedyFill limit acc xs ++ greedyFill limit (greedyTokens limit acc xs) ys := by
  intro xs
  induction xs with
  | nil => intro ys acc; simp [greedyFill, greedyTokens]
  | cons bt rest ih =>
    intro ys acc
    simp only [List.cons_append, greedyFill, greedyTokens, List.append_eq]
    by_cases hle : acc + bt.2 ≤ limit
    · rw [if_pos hle, if_pos hle, if_pos hle, ih]; simp
    · rw [if_neg hle, if_neg hle, if_neg hle, ih]

theorem greedyTokens_append (limit : Nat) :
    ∀ (xs ys : List (String × Nat)) (acc : Nat),
      greedyTokens limit acc (xs ++ ys) =
        greedyTokens limit (greedyTokens limit acc xs) ys := by
  intro xs
  induction xs with
  | nil => intro ys acc; simp [greedyTokens]
  | cons bt rest ih =>
    intro ys acc
    simp only [List.cons_append, greedyTokens, List.append_eq]
    by_cases hle : acc + bt.2 ≤ limit
    · rw [if_pos hle, if_pos hle, ih]
    · rw [if_neg hle, if_neg hle, ih]

theorem addNode_nodes {g : Graph} {n m : String} :
    m ∈ (addNode g n).nodes ↔ m ∈ g.nodes ∨ m = n := by
  unfold addNode
  split
  · rename_i h
    constructor
    · exact Or.inl
    · rintro (hm | rfl)
      · exact hm
      · exact h
  · simp

theorem addNode_nodup {g : Graph} (h : g.nodes.Nodup) (n : String) :
    (addNode g n).nodes.Nodup := by
  unfold addNode
  split
  · exact h
  · rename_i hn
    rw [List.nodup_append]
    refine ⟨h, List.nodup_singleton n, ?_⟩
    intro a ha hb
    rw [List.mem_singleton] at hb
    exact hn (hb ▸ ha)

theorem addNode_edges (g : Graph) (n : String) : (addNode g n).edges = g.edges := by
  unfold addNode
  split <;> rfl

theorem addEdge_nodes {g : Graph} {a b m : String} :
    m ∈ (addEdge g a b).nodes ↔ m ∈ g.nodes ∨ m = a ∨ m = b := by
  simp only [addEdge]
  split <;> simp [addNode_nodes, or_assoc]

theorem addEdge_nodup {g : Graph} (h : g.nodes.Nodup) (a b : String) :
    (addEdge g a b).nodes.Nodup := by
  simp only [addEdge]
  split <;> exact addNode_nodup (addNode_nodup h a) b

theorem addEdge_mem_self (g : Graph) (a b : String) :
    (a, b) ∈ (addEdge g a b).edges := by
  simp only [addEdge]
  split
  · assumption
  · simp

theorem addEdge_mem_mono {g : Graph} {e : String × String} (h : e ∈ g.edges)
    (a b : String) : e ∈ (addEdge g a b).edges := by
  simp only [addEdge]
  split
  · rename_i hmem
    rw [addNode_edges, addNode_edges] at hmem ⊢
    exact h
  · rw [List.mem_append, addNode_edges, addNode_edges]
    exact Or.inl h

theorem foldl_addEdge_nodes {fp : String} (ms : List FsPath) :
    ∀ (g : Graph) (m : String),
      m ∈ (ms.foldl (fun g x => addEdge g fp (pathStr x)) g).nodes →
      m ∈ g.nodes ∨ m = fp ∨ ∃ x ∈ ms, m = pathStr x := by
  induction ms with
  | nil => intro g m hm; exact Or.inl hm
  | cons x rest ih =>
    intro g m hm
    rw [List.foldl_cons] at hm
    rcases ih _ m hm with hg | hfp | ⟨y, hy, rfl⟩
    · rcases addEdge_nodes.mp hg with h | h | h
      · exact Or.inl h
      · exact Or.inr (Or.inl h)
      · exact Or.inr (Or.inr ⟨x, by simp, h⟩)
    · exact Or.inr (Or.inl hfp)
    · exact Or.inr (Or.inr ⟨y, by simp [hy], rfl⟩)

theorem foldl_addEdge_nodup {fp : String} (ms : List FsPath) :
    ∀ {g : Graph}, g.nodes.Nodup →
      (ms.foldl (fun g x => addEdge g fp (pathStr x)) g).nodes.Nodup := by
  induction ms with
  | nil => intro g h; exact h
  | cons x rest ih =>
    intro g h
    rw [List.foldl_cons]
    exact ih (addEdge_nodup h fp (pathStr x))

theorem foldl_addEdge_mem_mono {fp : String} (ms : List FsPath) :
    ∀ {g : Graph} {e : String × String}, e ∈ g.edges →
      e ∈ (ms.foldl (fun g x => addEdge g fp (pathStr x)) g).edges := by
  induction ms with
  | nil => intro g e h; exact h
  | cons x rest ih =>
    intro g e h
    rw [List.foldl_cons]
    exact ih (addEdge_mem_mono h fp (pathStr x))

theorem foldl_addEdge_mem {fp : String} (ms : List FsPath) :
    ∀ (g : Graph) (x : FsPath), x ∈ ms →
      (fp, pathStr x) ∈ (ms.foldl (fun g y => addEdge g fp (pathStr y)) g).edges := by
  induction ms with
  | nil => intro g x hx; simp at hx
  | cons y rest ih =>
    intro g x hx
    rw [List.foldl_cons]
    rcases List.mem_cons.mp hx with rfl | hx
    · exact foldl_addEdge_mem_mono rest (addEdge_mem_self g fp (pathStr x))
    · exact ih _ x hx

theorem add_module_dependency_inv {fs : FileSystem} {g : Graph} {source : String}
    {tf : FsPath} {fp : String}
    (h1 : g.nodes.Nodup) (h2 : ∀ n ∈ g.nodes, ∃ f ∈ fs.tfFiles, n = pathStr f)
    (hfp : ∃ f ∈ fs.tfFiles, fp = pathStr f) :
    (add_module_dependency fs g source tf fp).nodes.Nodup ∧
      ∀ n ∈ (add_module_dependency fs g source tf fp).nodes,
        ∃ f ∈ fs.tfFiles, n = pathStr f := by
  have hfold : ∀ (ms : List FsPath), (∀ x ∈ ms, x ∈ fs.tfFiles) →
      (ms.foldl (fun g m => addEdge g fp (pathStr m)) g).nodes.Nodup ∧
      ∀ n ∈ (ms.foldl (fun g m => addEdge g fp (pathStr m)) g).nodes,
        ∃ f ∈ fs.tfFiles, n = pathStr f := by
    intro ms hms
    refine ⟨foldl_addEdge_nodup ms h1, ?_⟩
    intro n hn
    rcases foldl_addEdge_nodes ms g n hn with hg | rfl | ⟨x, hx, rfl⟩
    · exact h2 n hg
    · exact hfp
    · exact ⟨x, hms x hx, rfl⟩
  simp only [add_module_dependency]
  split_ifs with hl hd he
  · exact hfold _ (fun x hx => (List.mem_filter.mp hx).1)
  · exact hfold _ (fun x hx => (List.mem_filter.mp hx).1)
  · exact ⟨h1, h2⟩
  · exact ⟨h1, h2⟩

theorem process_module_list_inv {fs : FileSystem}
    (mods : List (List (String × SourceAttr))) :
    ∀ {g : Graph} {tf : FsPath} {fp : String},
      g.nodes.Nodup → (∀ n ∈ g.nodes, ∃ f ∈ fs.tfFiles, n = pathStr f) →
      (∃ f ∈ fs.tfFiles, fp = pathStr f) →
      (process_module_list fs g mods tf fp).nodes.Nodup ∧
        ∀ n ∈ (process_module_list fs g mods tf fp).nodes,
          ∃ f ∈ fs.tfFiles, n = pathStr f := by
  induction mods with
  | nil => intro g tf fp h1 h2 _; exact ⟨h1, h2⟩
  | cons md rest ih =>
    intro g tf fp h1 h2 hfp
    rw [process_module_list, List.foldl_cons]
    have hmd : ∀ (md' : List (String × SourceAttr)) {g' : Graph},
        g'.nodes.Nodup → (∀ n ∈ g'.nodes, ∃ f ∈ fs.tfFiles, n = pathStr f) →
        (md'.foldl (fun g nmcfg =>
          match nmcfg.2 with
          | some source => add_module_dependency fs g source tf fp
          | none => g) g').nodes.Nodup ∧
        ∀ n ∈ (md'.foldl (fun g nmcfg =>
          match nmcfg.2 with
          | some source => add_module_dependency fs g source tf fp
          | none => g) g').nodes, ∃ f ∈ fs.tfFiles, n = pathStr f := by
      intro md'
      induction md' with
      | nil => intro g' hg1 hg2; exact ⟨hg1, hg2⟩
      | cons nmcfg rest' ihmd =>
        intro g' hg1 hg2
        rw [List.foldl_cons]
        cases hc : nmcfg.2 with
        | none => simp only [hc]; exact ihmd hg1 hg2
        | some src =>
          simp only [hc]
          obtain ⟨ha1, ha2⟩ := add_module_dependency_inv hg1 hg2 hfp
          exact ihmd ha1 ha2
    obtain ⟨hb1, hb2⟩ := hmd md h1 h2
    exact ih hb1 hb2 hfp

theorem process_module_dict_inv {fs : FileSystem}
    (mods : List (String × ConfigVal)) :
    ∀ {g : Graph} {tf : FsPath} {fp : String},
      g.nodes.Nodup → (∀ n ∈ g.nodes, ∃ f ∈ fs.tfFiles, n = pathStr f) →
      (∃ f ∈ fs.tfFiles, fp = pathStr f) →
      (process_module_dict fs g mods tf fp).nodes.Nodup ∧
        ∀ n ∈ (process_module_dict fs g mods tf fp).nodes,
          ∃ f ∈ fs.tfFiles, n = pathStr f := by
  induction mods with
  | nil => intro g tf fp h1 h2 _; exact ⟨h1, h2⟩
  | cons nmcfg rest ih =>
    intro g tf fp h1 h2 hfp
    obtain ⟨nm, cfg⟩ := nmcfg
    cases cfg with
    | plain src =>
      rw [process_module_dict]
      obtain ⟨ha1, ha2⟩ := add_module_dependency_inv h1 h2 hfp
      exact ih ha1 ha2 hfp
    | wrapped cs =>
      cases cs with
      | nil => rw [process_module_dict]; exact ⟨h1, h2⟩
      | cons c rest' =>
        rw [process_module_dict]
        obtain ⟨ha1, ha2⟩ := add_module_dependency_inv h1 h2 hfp
        exact ih ha1 ha2 hfp

theorem processFile_inv {fs : FileSystem} {g : Graph} {tf : FsPath}
    (h1 : g.nodes.Nodup) (h2 : ∀ n ∈ g.nodes, ∃ f ∈ fs.tfFiles, n = pathStr f)
    (htf : ∃ f ∈ fs.tfFiles, pathStr tf = pathStr f) :
    (processFile fs g tf).nodes.Nodup ∧
      ∀ n ∈ (processFile fs g tf).nodes, ∃ f ∈ fs.tfFiles, n = pathStr f := by
  have hn1 : (addNode g (pathStr tf)).nodes.Nodup := addNode_nodup h1 _
  have hn2 : ∀ n ∈ (addNode g (pathStr tf)).nodes, ∃ f ∈ fs.tfFiles, n = pathStr f := by
    intro n hn
    rcases addNode_nodes.mp hn with hg | rfl
    · exact h2 n hg
    · exact htf
  unfold processFile
  cases (fs.hcl.lookup (resolvePath fs.cwd tf)).join with
  | none => exact ⟨hn1, hn2⟩
  | some hm =>
    cases hm with
    | hlist mods => exact process_module_list_inv mods hn1 hn2 htf
    | hdict mods => exact process_module_dict_inv mods hn1 hn2 htf

theorem globTf_mem {fs : FileSystem} {root : FsPath}
    (habs : root.absolute = true)
    (hnorm : resolveSegs root.segs = root.segs)
    (hfa : ∀ f ∈ fs.tfFiles, f.absolute = true) :
    ∀ tf ∈ globTf fs root, tf ∈ fs.tfFiles := by
  intro tf htf
  unfold globTf at htf
  rw [List.mem_filterMap] at htf
  obtain ⟨f, hf, heq⟩ := htf
  have hres : (resolvePath fs.cwd root).segs = root.segs := by
    simp [resolvePath, habs, hnorm]
  rw [hres] at heq
  by_cases hc : root.segs.isPrefixOf f.segs
  · rw [if_pos hc, Option.some_inj] at heq
    subst heq
    have hpre : root.segs <+: f.segs := by
      rwa [← List.isPrefixOf_iff_prefix]
    have htake : root.segs = f.segs.take root.segs.length :=
      List.prefix_iff_eq_take.mp hpre
    have hsegs : root.segs ++ f.segs.drop root.segs.length = f.segs := by
      conv_rhs => rw [← List.take_append_drop root.segs.length f.segs]
      rw [← htake]
    have hfab := hfa f hf
    have heqf : (⟨root.absolute, root.segs ++ f.segs.drop root.segs.length⟩ : FsPath) = f := by
      obtain ⟨fa, fsegs⟩ := f
      simp only [FsPath.mk.injEq]
      exact ⟨by rw [habs]; exact hfab.symm, hsegs⟩
    rw [heqf]
    exact hf
  · rw [if_neg hc] at heq
    exact absurd heq (by simp)

theorem build_dependency_graph_inv {fs : FileSystem} {root : FsPath}
    (habs : root.absolute = true)
    (hnorm : resolveSegs root.segs = root.segs)
    (hfa : ∀ f ∈ fs.tfFiles, f.absolute = true) :
    (build_dependency_graph fs root).nodes.Nodup ∧
      ∀ n ∈ (build_dependency_graph fs root).nodes,
        ∃ f ∈ fs.tfFiles, n = pathStr f := by
  have hglob := globTf_mem habs hnorm hfa
  unfold build_dependency_graph
  have hfold : ∀ (l : List FsPath), (∀ tf ∈ l, tf ∈ fs.tfFiles) →
      ∀ (g : Graph), g.nodes.Nodup →
        (∀ n ∈ g.nodes, ∃ f ∈ fs.tfFiles, n = pathStr f) →
        (l.foldl (fun g tf =>
          if hasSub ".terraform".data (pathStr tf).data
              || tf.segs.any (fun p => pyStarts p ".") then g
          else processFile fs g tf) g).nodes.Nodup ∧
        ∀ n ∈ (l.foldl (fun g tf =>
          if hasSub ".terraform".data (pathStr tf).data
              || tf.segs.any (fun p => pyStarts p ".") then g
          else processFile fs g tf) g).nodes, ∃ f ∈ fs.tfFiles, n = pathStr f := by
    intro l
    induction l with
    | nil => intro _ g h1 h2; exact ⟨h1, h2⟩
    | cons tf rest ih =>
      intro hl g h1 h2
      rw [List.foldl_cons]
      split
      · exact ih (fun x hx => hl x (by simp [hx])) g h1 h2
      · obtain ⟨hp1, hp2⟩ :=
          processFile_inv h1 h2 ⟨tf, hl tf (by simp), rfl⟩
        exact ih (fun x hx => hl x (by simp [hx])) _ hp1 hp2
  exact hfold (globTf fs root) hglob ⟨[], []⟩ List.nodup_nil (by simp)

theorem tokenBlocks_cons (ctx : PromptCtx) (p : String) (ps : List String) :
    tokenBlocks ctx (p :: ps) = tokenBlocks ctx [p] ++ tokenBlocks ctx ps := by
  unfold tokenBlocks
  cases h : readBlock ctx p <;> simp [List.filterMap_cons, h]

theorem sum_utf8_ones :
    ∀ (l : List Char), (∀ c ∈ l, Char.utf8Size c = 1) →
      (l.map Char.utf8Size).sum = l.length := by
  intro l
  induction l with
  | nil => intro _; rfl
  | cons c rest ih =>
    intro h
    simp only [List.map_cons, List.sum_cons, List.length_cons,
      h c (by simp), ih (fun d hd => h d (by simp [hd]))]
    omega

theorem dictInsert_ne_nil (m : List (String × String)) (k v : String) :
    dictInsert m k v ≠ [] := by
  unfold dictInsert
  split
  · rename_i h
    cases m with
    | nil => simp at h
    | cons a rest => simp
  · simp

theorem extractStep_foldl_nil (ms : List (List Char × List Char)) :
    ∀ (m : List (String × String)),
      ms.foldl extractStep m = [] ↔ m = [] ∧ ms = [] := by
  induction ms with
  | nil => intro m; simp
  | cons fc rest ih =>
    intro m
    rw [List.foldl_cons, ih]
    constructor
    · rintro ⟨hstep, -⟩
      exact absurd hstep (dictInsert_ne_nil _ _ _)
    · rintro ⟨-, h⟩
      exact absurd h (by simp)

theorem stripTagFenceF_fuel :
    ∀ (n m : Nat) (cs : List Char), cs.length < n → cs.length < m →
      stripTagFenceF n cs = stripTagFenceF m cs := by
  intro n
  induction n with
  | zero => intro m cs h _; omega
  | succ n ih =>
    intro m cs hn hm
    cases m with
    | zero => omega
    | succ m =>
      cases cs with
      | nil => rfl
      | cons c rest =>
        have hr : rest.length < n := by simp at hn; omega
        have hr' : rest.length < m := by simp at hm; omega
        have hd : ∀ k, 1 ≤ k → ((rest.drop 2).drop k).length < n ∧
            ((rest.drop 2).drop k).length < m := by
          intro k hk
          simp only [List.length_drop]
          omega
        simp only [stripTagFenceF]
        split_ifs with h1 h2 h3 h4 h5
        · exact ih m _ (hd 10 (by omega)).1 (hd 10 (by omega)).2
        · exact ih m _ (hd 4 (by omega)).1 (hd 4 (by omega)).2
        · exact ih m _ (hd 3 (by omega)).1 (hd 3 (by omega)).2
        · exact ih m _ (hd 1 (by omega)).1 (hd 1 (by omega)).2
        · rw [ih m rest hr hr']
        · rw [ih m rest hr hr']

theorem stripTagFenceF_terraform (n : Nat) (l : List Char) :
    stripTagFenceF (n + 1)
      ('\x60' :: '\x60' :: '\x60' :: 't' :: 'e' :: 'r' :: 'r' :: 'a' :: 'f' ::
        'o' :: 'r' :: 'm' :: '\n' :: l) = stripTagFenceF n l := rfl

theorem stripTagFenceF_hcl (n : Nat) (l : List Char) :
    stripTagFenceF (n + 1)
      ('\x60' :: '\x60' :: '\x60' :: 'h' :: 'c' :: 'l' :: '\n' :: l) =
      stripTagFenceF n l := rfl

theorem stripTagFenceF_tf (n : Nat) (l : List Char) :
    stripTagFenceF (n + 1) ('\x60' :: '\x60' :: '\x60' :: 't' :: 'f' :: '\n' :: l) =
      stripTagFenceF n l := rfl

theorem stripTagFenceF_nl (n : Nat) (l : List Char) :
    stripTagFenceF (n + 1) ('\x60' :: '\x60' :: '\x60' :: '\n' :: l) =
      stripTagFenceF n l := rfl

theorem isT3_of_ne1 {c : Char} (h : c ≠ '\x60') (l : List Char) :
    isT3 (c :: l) = false := by
  cases l with
  | nil => rfl
  | cons d rest =>
    cases rest with
    | nil => rfl
    | cons e rest' => simp [isT3, h]

theorem isT3_of_ne2 {d : Char} (c : Char) (h : d ≠ '\x60') (l : List Char) :
    isT3 (c :: d :: l) = false := by
  cases l with
  | nil => rfl
  | cons e rest => simp [isT3, h]

theorem isT3_of_ne3 {e : Char} (c d : Char) (h : e ≠ '\x60') (l : List Char) :
    isT3 (c :: d :: e :: l) = false := by
  simp [isT3, h]

theorem stripTicks_cons_ne {e : Char} (h : e ≠ '\x60') (t : List Char) :
    ∃ r, stripTicks (e :: t) = e :: r := by
  cases t with
  | nil => exact ⟨[], rfl⟩
  | cons d rest =>
    cases rest with
    | nil => exact ⟨[d], rfl⟩
    | cons f rest' =>
      refine ⟨stripTicks (d :: f :: rest'), ?_⟩
      simp [stripTicks, h]

theorem stripTicks_bt_ne {e : Char} (h : e ≠ '\x60') (t : List Char) :
    ∃ r, stripTicks ('\x60' :: e :: t) = '\x60' :: e :: r := by
  cases t with
  | nil => exact ⟨[], rfl⟩
  | cons f rest =>
    obtain ⟨r, hr⟩ := stripTicks_cons_ne h (f :: rest)
    refine ⟨r, ?_⟩
    rw [stripTicks, if_neg (by simp [h]), hr]

theorem hasTicks_stripTicks : ∀ (l : List Char), hasTicks (stripTicks l) = false
  | [] => rfl
  | [c] => by simp [stripTicks, hasTicks, isT3]
  | [c, d] => by simp [stripTicks, hasTicks, isT3]
  | c :: d :: e :: t => by
    by_cases h : c = '\x60' ∧ d = '\x60' ∧ e = '\x60'
    · obtain ⟨rfl, rfl, rfl⟩ := h
      rw [stripTicks, if_pos (by simp)]
      exact hasTicks_stripTicks t
    · rw [stripTicks, if_neg (by simpa using fun h1 h2 h3 => h ⟨h1, h2, h3⟩)]
      have hx := hasTicks_stripTicks (d :: e :: t)
      rw [hasTicks, hx, Bool.or_false]
      by_cases hc : c = '\x60'
      · subst hc
        by_cases hdb : d = '\x60'
        · subst hdb
          have he : e ≠ '\x60' := fun he => h ⟨rfl, rfl, he⟩
          obtain ⟨r, hr⟩ := stripTicks_bt_ne he t
          rw [hr]
          exact isT3_of_ne3 _ _ he r
        · obtain ⟨r, hr⟩ := stripTicks_cons_ne hdb (e :: t)
          rw [hr]
          exact isT3_of_ne2 _ hdb r
      · exact isT3_of_ne1 hc _

theorem stripTagFence_drop_terraform (l : List Char) :
    stripTagFence ('\x60' :: '\x60' :: '\x60' :: 't' :: 'e' :: 'r' :: 'r' :: 'a' ::
      'f' :: 'o' :: 'r' :: 'm' :: '\n' :: l) = stripTagFence l := by
  unfold stripTagFence
  simp only [List.length_cons]
  rw [stripTagFenceF_terraform]
  exact stripTagFenceF_fuel _ _ l (by omega) (by omega)

theorem stripTagFence_drop_hcl (l : List Char) :
    stripTagFence ('\x60' :: '\x60' :: '\x60' :: 'h' :: 'c' :: 'l' :: '\n' :: l) =
      stripTagFence l := by
  unfold stripTagFence
  simp only [List.length_cons]
  rw [stripTagFenceF_hcl]
  exact stripTagFenceF_fuel _ _ l (by omega) (by omega)

theorem stripTagFence_drop_tf (l : List Char) :
    stripTagFence ('\x60' :: '\x60' :: '\x60' :: 't' :: 'f' :: '\n' :: l) =
      stripTagFence l := by
  unfold stripTagFence
  simp only [List.length_cons]
  rw [stripTagFenceF_tf]
  exact stripTagFenceF_fuel _ _ l (by omega) (by omega)

theorem stripTagFence_drop_nl (l : List Char) :
    stripTagFence ('\x60' :: '\x60' :: '\x60' :: '\n' :: l) = stripTagFence l := by
  unfold stripTagFence
  simp only [List.length_cons]
  rw [stripTagFenceF_nl]
  exact stripTagFenceF_fuel _ _ l (by omega) (by omega)

/-! ## Claim theorems -/

/-- C2: for every dependency graph (cycles included) and every entry node
present in it, `get_relevant_files` returns exactly the set of nodes
transitively reachable from the entry along outgoing edges, excluding
the entry itself, with no duplicates (the result is a finite set) and
with a terminating computation; in particular for edges A->B, B->C, A->C
the result from A is {B, C}, and for the cycle A->B, B->A the result
from A is {B} and from B is {A}. -/
theorem reachability_spec :
    (∀ (nodes : List String) (edges : List (String × String)) (e : String),
        e ∈ nodes → ∀ x,
          x ∈ get_relevant_files nodes edges e ↔ (Reach edges e x ∧ x ≠ e))
    ∧ get_relevant_files ["A", "B", "C"] [("A", "B"), ("B", "C"), ("A", "C")] "A"
        = {"B", "C"}
    ∧ get_relevant_files ["A", "B"] [("A", "B"), ("B", "A")] "A" = {"B"}
    ∧ get_relevant_files ["A", "B"] [("A", "B"), ("B", "A")] "B" = {"A"} := by
  refine ⟨?_, by decide, by decide, by decide⟩
  intro nodes edges e he x
  rw [get_relevant_files, if_pos he]
  exact mem_descendants

/-- Witness for C2: the generic part applied to a concrete two-node
graph with its entry present. -/
theorem reachability_spec_witness :
    "A" ∈ ["A", "B"] ∧
      ("B" ∈ get_relevant_files ["A", "B"] [("A", "B")] "A" ↔
        (Reach [("A", "B")] "A" "B" ∧ "B" ≠ "A")) :=
  ⟨by decide, reachability_spec.1 ["A", "B"] [("A", "B")] "A" (by decide) "B"⟩

/-- C1 counterexample: with the script's default *relative* `target_dir`
spelling, the same file appears as two distinct graph nodes - its
scan-relative spelling (added when the file is scanned) and its resolved
absolute spelling (added as the target of a module-reference edge) -
although both strings denote the same file on disk. -/
theorem node_duplication_relative_root :
    "repo/modules/x/a.tf" ∈ graphRel.nodes ∧
    "/home/repo/modules/x/a.tf" ∈ graphRel.nodes ∧
    ("repo/modules/x/a.tf" : String) ≠ "/home/repo/modules/x/a.tf" ∧
    denote fsRel "repo/modules/x/a.tf" = denote fsRel "/home/repo/modules/x/a.tf" := by
  refine ⟨by decide, by decide, by decide, by decide⟩

/-- C1 amended: node identity is the literal path string, so the
uniqueness invariant holds only when the scan root is an absolute,
already-normalized path (then every node the builder inserts - scanned
spelling or resolved edge target - is the canonical rendering of an
existing file, the node list has no duplicates, and two path-equivalent
spellings cannot produce two nodes); with a relative scan root the
invariant fails, as the counterexample shows. -/
theorem node_canonical_absolute_root (fs : FileSystem) (root : FsPath)
    (habs : root.absolute = true)
    (hnorm : resolveSegs root.segs = root.segs)
    (hfa : ∀ f ∈ fs.tfFiles, f.absolute = true) :
    (build_dependency_graph fs root).nodes.Nodup ∧
      ∀ n ∈ (build_dependency_graph fs root).nodes,
        ∃ f ∈ fs.tfFiles, n = pathStr f :=
  build_dependency_graph_inv habs hnorm hfa

/-- Witness for the amended C1 at a concrete absolute, normalized root. -/
theorem node_canonical_absolute_root_witness :
    resolveSegs (["r"] : List String) = ["r"] ∧
      (build_dependency_graph fsAbs ⟨true, ["r"]⟩).nodes.Nodup :=
  ⟨by decide,
   (node_canonical_absolute_root fsAbs ⟨true, ["r"]⟩ rfl (by decide) (by decide)).1⟩

/-- C4 counterexample: a colon-free Terraform registry identifier is a
*remote* source, yet `_add_module_dependency` classifies it as local
(its test only rejects sources containing `:`), so when a matching local
directory happens to exist the reference contributes an edge instead of
resolving to nothing. -/
theorem registry_source_adds_edges :
    (add_module_dependency fsReg ⟨[], []⟩ "terraform-aws-modules/vpc/aws"
        ⟨true, ["r", "main.tf"]⟩ "/r/main.tf").edges =
      [("/r/main.tf", "/r/terraform-aws-modules/vpc/aws/m.tf")] ∧
    (add_module_dependency fsReg ⟨[], []⟩ "terraform-aws-modules/vpc/aws"
        ⟨true, ["r", "main.tf"]⟩ "/r/main.tf").edges ≠ [] := by
  refine ⟨by decide, by decide⟩

/-- C4 amended: a source that does not start with `.` and contains a `:`
(git URLs, scheme-qualified paths) contributes zero edges for every file
system and graph; a colon-free registry identifier however is treated as
a local path and can contribute edges when the path exists (see the
counterexample); a local `../modules/x` resolving to an existing
directory with two configuration files contributes exactly those two
edges. -/
theorem source_classification_edges :
    (∀ (fs : FileSystem) (g : Graph) (source : String) (tf : FsPath) (fp : String),
        pyStarts source "." = false → pyContains source ':' = true →
        add_module_dependency fs g source tf fp = g)
    ∧ (add_module_dependency fsLoc ⟨[], []⟩ "../modules/x"
        ⟨true, ["r", "app", "main.tf"]⟩ "/r/app/main.tf").edges =
      [("/r/app/main.tf", "/r/modules/x/a.tf"),
       ("/r/app/main.tf", "/r/modules/x/b.tf")] := by
  constructor
  · intro fs g source tf fp h1 h2
    unfold add_module_dependency
    rw [h1, h2]
    simp
  · decide

/-- Witness for the amended C4: a `git::` URL contributes zero edges. -/
theorem source_classification_edges_witness :
    pyStarts "git::https://example.com/x.git" "." = false ∧
      add_module_dependency fsReg ⟨[], []⟩ "git::https://example.com/x.git"
        ⟨true, ["r", "main.tf"]⟩ "/r/main.tf" = ⟨[], []⟩ :=
  ⟨by decide,
   source_classification_edges.1 fsReg ⟨[], []⟩ "git::https://example.com/x.git"
     ⟨true, ["r", "main.tf"]⟩ "/r/main.tf" (by decide) (by decide)⟩

/-- C5 counterexample: one module declaration named `m` with no
`"source"` attribute, presented to both shape handlers: the list shape
contributes no edges, the dictionary shape defaults the source to the
empty string and contributes edges to every file of the referencing
file's own directory - so the two shapes are not edge-equivalent, and
the missing attribute is not defaulted in the list shape. -/
theorem module_shapes_disagree_missing_source :
    process_module_list fsTwo ⟨[], []⟩ [[("m", (none : SourceAttr))]]
        mainTwo "/r/main.tf" = ⟨[], []⟩ ∧
    (process_module_dict fsTwo ⟨[], []⟩ [("m", ConfigVal.plain none)]
        mainTwo "/r/main.tf").edges =
      [("/r/main.tf", "/r/main.tf"), ("/r/main.tf", "/r/other.tf")] := by
  refine ⟨by decide, by decide⟩

/-- C5 amended: when every declaration carries a `"source"` attribute the
two parser shapes are normalized to the same (name, config) pairs and
produce exactly the same graph, whatever the file system, starting
graph, file and collection; a declaration with no `"source"` is skipped
by the list shape but defaulted to the empty string by the dictionary
shape (see the counterexample). -/
theorem module_shapes_agree_with_source :
    ∀ (fs : FileSystem) (pairs : List (String × String)) (g : Graph)
      (tf : FsPath) (fp : String),
      process_module_list fs g (pairs.map fun pr => [(pr.1, some pr.2)]) tf fp =
        process_module_dict fs g
          (pairs.map fun pr => (pr.1, ConfigVal.plain (some pr.2))) tf fp := by
  intro fs pairs
  induction pairs with
  | nil => intro g tf fp; rfl
  | cons pr rest ih =>
    intro g tf fp
    rw [List.map_cons, List.map_cons, process_module_list, List.foldl_cons]
    show process_module_list fs _ _ tf fp = _
    rw [process_module_dict]
    exact ih _ tf fp

/-- C10: in the dictionary shape a module declaration with no `"source"`
attribute is defaulted to the empty string, which is classified local
and resolves to the referencing file's own parent directory; the builder
then adds an edge from the file to every direct `.tf` file of that
directory - including the referencing file itself, spelled as a resolved
path - whereas the same declaration in the list shape contributes no
edges at all. -/
theorem default_empty_source_edges (fs : FileSystem) (g : Graph) (nm : String)
    (tf : FsPath)
    (hdir : resolvePath fs.cwd ⟨tf.absolute, tf.segs.dropLast⟩ ∈ fs.dirs)
    (hself : resolvePath fs.cwd tf ∈ fs.tfFiles)
    (hpar : (resolvePath fs.cwd tf).segs.dropLast =
      (resolvePath fs.cwd ⟨tf.absolute, tf.segs.dropLast⟩).segs) :
    (∀ m ∈ globTfDirect fs (resolvePath fs.cwd ⟨tf.absolute, tf.segs.dropLast⟩),
        (pathStr tf, pathStr m) ∈
          (process_module_dict fs g [(nm, ConfigVal.plain none)] tf (pathStr tf)).edges)
    ∧ (pathStr tf, pathStr (resolvePath fs.cwd tf)) ∈
        (process_module_dict fs g [(nm, ConfigVal.plain none)] tf (pathStr tf)).edges
    ∧ process_module_list fs g [[(nm, (none : SourceAttr))]] tf (pathStr tf) = g := by
  have hjoin : joinPath ⟨tf.absolute, tf.segs.dropLast⟩ "" =
      (⟨tf.absolute, tf.segs.dropLast⟩ : FsPath) := by
    simp [joinPath, pyStarts, parseRel, splitOnChar]
  have hmain : process_module_dict fs g [(nm, ConfigVal.plain none)] tf (pathStr tf) =
      (globTfDirect fs
        (resolvePath fs.cwd ⟨tf.absolute, tf.segs.dropLast⟩)).foldl
        (fun g m => addEdge g (pathStr tf) (pathStr m)) g := by
    rw [process_module_dict, process_module_dict]
    show add_module_dependency fs g "" tf (pathStr tf) = _
    unfold add_module_dependency
    rw [if_pos (by decide)]
    simp only [hjoin]
    rw [if_pos hdir]
  refine ⟨?_, ?_, ?_⟩
  · intro m hm
    rw [hmain]
    exact foldl_addEdge_mem _ g m hm
  · rw [hmain]
    refine foldl_addEdge_mem _ g _ ?_
    rw [globTfDirect, List.mem_filter]
    exact ⟨hself, by rw [hpar]; exact decide_eq_true rfl⟩
  · rfl

/-- Witness for C10 at the concrete two-file directory `fsTwo`. -/
theorem default_empty_source_edges_witness :
    resolvePath fsTwo.cwd mainTwo ∈ fsTwo.tfFiles ∧
      (pathStr mainTwo, pathStr (resolvePath fsTwo.cwd mainTwo)) ∈
        (process_module_dict fsTwo ⟨[], []⟩ [("m", ConfigVal.plain none)]
          mainTwo (pathStr mainTwo)).edges :=
  ⟨by decide,
   (default_empty_source_edges fsTwo ⟨[], []⟩ "m" mainTwo
      (by decide) (by decide) (by decide)).2.1⟩

/-- C3: `_truncate_context` is best-effort fill at whole-file
granularity: for every context, file list and entry it walks the entry
first and then the remaining files, keeps a running total, and includes
a block exactly when the total stays within the hard limit of 70000,
still attempting later files after a skip (the greedy-fill
characterisation); on the spec's three-30000-token-file scenario the
unbounded estimate is 90000 (exceeding the soft limit of 80000, so
`generate_prompt` triggers truncation), the result keeps the entry and
the second file only, and the bundle reports 2 files and 60000 tokens;
a fourth scenario shows a file skipped for overflow followed by a
smaller file that is still included. -/
theorem truncation_best_effort :
    (∀ (ctx : PromptCtx) (files_to_read : List String) (entry : String),
        truncStateOf ctx files_to_read entry =
          ⟨greedyFill 70000 0 (tokenBlocks ctx
              (entry :: files_to_read.filter (fun f => f ≠ entry))),
            greedyTokens 70000 0 (tokenBlocks ctx
              (entry :: files_to_read.filter (fun f => f ≠ entry))),
            (greedyFill 70000 0 (tokenBlocks ctx
              (entry :: files_to_read.filter (fun f => f ≠ entry)))).length⟩)
    ∧ ctxBudget.countTokens (String.intercalate "\n"
        ((["/e.tf", "/f2.tf", "/f3.tf"]).filterMap (readBlock ctxBudget))) = 90000
    ∧ 80000 < ctxBudget.countTokens (String.intercalate "\n"
        ((["/e.tf", "/f2.tf", "/f3.tf"]).filterMap (readBlock ctxBudget)))
    ∧ truncStateOf ctxBudget ["/e.tf", "/f2.tf", "/f3.tf"] "/e.tf" =
        ⟨[fileBlock "/e.tf" "q", fileBlock "/f2.tf" "q"], 60000, 2⟩
    ∧ ctxBudget.countTokens
        (truncate_context ctxBudget ["/e.tf", "/f2.tf", "/f3.tf"] "/e.tf") = 60000
    ∧ (generate_prompt ctxBudget "/e.tf" ["/f2.tf", "/f3.tf"]).2.2 = 2
    ∧ truncStateOf ctxSkip ["/e.tf", "/f2.tf", "/f3.tf", "/f4.tf"] "/e.tf" =
        ⟨[fileBlock "/e.tf" "qqq", fileBlock "/f2.tf" "qqq", fileBlock "/f4.tf" "q"],
          70000, 3⟩ := by
  refine ⟨?_, by decide, by decide, by decide, by decide, by decide, by decide⟩
  intro ctx files_to_read entry
  unfold truncStateOf
  rw [truncLoop_eq_greedy, truncLoop_eq_greedy]
  dsimp only
  rw [tokenBlocks_cons ctx entry (files_to_read.filter (fun f => f ≠ entry))]
  rw [greedyFill_append, greedyTokens_append]
  simp [List.length_append]

/-- C8 counterexample: in the truncation path `generate_prompt`
recomputes the inclusion count by splitting the truncated context on the
substring `FILE:`; when an included file's content itself contains that
substring the reported count (here 3) differs from the number of files
actually included in the bundle (here 2), so the reported count is not
exact. -/
theorem inclusion_count_overcount :
    (generate_prompt ctxMarker "/e.tf" ["/f2.tf", "/f3.tf"]).2.2 = 3 ∧
    (truncStateOf ctxMarker ["/e.tf", "/f2.tf", "/f3.tf"] "/e.tf").count = 2 ∧
    (3 : Nat) ≠ 2 := by
  refine ⟨by decide, by decide, by decide⟩

/-- C8 amended: the reported token total is always the counting strategy
applied to the assembled prompt text; the reported inclusion count is
exact in the unbounded path (it equals the number of blocks actually
assembled); in the truncation path the count is recomputed by splitting
the truncated context on the `FILE:` marker, which equals the true count
only when no included content adds marker occurrences (the
counterexample shows it overcounting). -/
theorem reported_counts :
    (∀ (ctx : PromptCtx) (entry : String) (relevant : List String),
        (generate_prompt ctx entry relevant).2.1 =
          ctx.countTokens (generate_prompt ctx entry relevant).1)
    ∧ (∀ (ctx : PromptCtx) (entry : String) (relevant : List String),
        ¬ 80000 < ctx.countTokens (String.intercalate "\n"
            ((entry :: relevant).filterMap (readBlock ctx))) →
        (generate_prompt ctx entry relevant).2.2 =
          ((entry :: relevant).filterMap (readBlock ctx)).length)
    ∧ (∀ (ctx : PromptCtx) (entry : String) (relevant : List String),
        80000 < ctx.countTokens (String.intercalate "\n"
            ((entry :: relevant).filterMap (readBlock ctx))) →
        (generate_prompt ctx entry relevant).2.2 =
          (pySplit (truncate_context ctx (entry :: relevant) entry) "FILE:").length - 1) := by
  refine ⟨?_, ?_, ?_⟩
  · intro ctx entry relevant
    rfl
  · intro ctx entry relevant h
    unfold generate_prompt
    dsimp only
    rw [if_neg h]
  · intro ctx entry relevant h
    unfold generate_prompt
    dsimp only
    rw [if_pos h]

/-- Witness for the amended C8: an unbounded assembly with no readable
files reports an inclusion count of zero. -/
theorem reported_counts_witness :
    (¬ 80000 < ctxNone.countTokens (String.intercalate "\n"
        ((["/e.tf"] : List String).filterMap (readBlock ctxNone)))) ∧
      (generate_prompt ctxNone "/e.tf" []).2.2 =
        ((["/e.tf"] : List String).filterMap (readBlock ctxNone)).length :=
  ⟨by decide, reported_counts.2.1 ctxNone "/e.tf" [] (by decide)⟩

/-- C7 counterexample: with the fallback strategy, `count_tokens` divides
Python's `len` - the number of Unicode code points - by four, not the
UTF-8 byte length: on four copies of a two-byte character the code
yields 1 while the byte-length rule yields 2. -/
theorem count_tokens_not_bytes :
    count_tokens none "éééé" = 1 ∧ utf8Len "éééé" = 8 ∧
      count_tokens none "éééé" ≠ utf8Len "éééé" / 4 := by
  refine ⟨by decide, by decide, by decide⟩

/-- C7 amended: with the fallback strategy `count_tokens` equals the
code-point count divided by four (a natural number, hence non-negative)
for every string; it coincides with the byte length divided by four
exactly on text whose characters all encode to one UTF-8 byte (ASCII). -/
theorem count_tokens_fallback_chars :
    (∀ s : String, count_tokens none s = s.length / 4)
    ∧ (∀ s : String, (∀ c ∈ s.data, Char.utf8Size c = 1) →
        count_tokens none s = utf8Len s / 4) := by
  constructor
  · intro s
    rfl
  · intro s h
    have hl : utf8Len s = s.data.length := by
      unfold utf8Len
      rw [sum_utf8_ones s.data h]
    rw [hl]
    rfl

/-- Witness for the amended C7 on an ASCII string. -/
theorem count_tokens_fallback_chars_witness :
    (∀ c ∈ "abcd".data, Char.utf8Size c = 1) ∧
      count_tokens none "abcd" = utf8Len "abcd" / 4 :=
  ⟨by decide, count_tokens_fallback_chars.2 "abcd" (by decide)⟩

/-- C6 counterexample: the cleaning step of `extract_file_content` only
recognises the language tags `terraform`, `hcl` and `tf`; for any other
tag (here `python`) the second substitution removes the backticks but
the tag text survives into the content handed to the marker grammar. -/
theorem fence_tag_text_remains :
    cleanResponse "```python\nfoo" = "python\nfoo" ∧
      hasSub "python".data (cleanResponse "```python\nfoo").data = true := by
  refine ⟨by decide, by decide⟩

/-- C6 amended: a fence opener whose tag is `terraform`, `hcl`, `tf` or
absent is stripped entirely (tag included) by the cleaning step, and no
fence token (three backticks) ever survives cleaning, for every input;
but a fence opener with any other language tag only loses its backticks
- the tag text remains in the content passed to the marker grammar (see
the counterexample). -/
theorem fence_stripping_behaviour :
    (∀ s : String, cleanResponse ("```terraform\n" ++ s) = cleanResponse s)
    ∧ (∀ s : String, cleanResponse ("```hcl\n" ++ s) = cleanResponse s)
    ∧ (∀ s : String, cleanResponse ("```tf\n" ++ s) = cleanResponse s)
    ∧ (∀ s : String, cleanResponse ("```\n" ++ s) = cleanResponse s)
    ∧ (∀ s : String, hasTicks (cleanResponse s).data = false) := by
  refine ⟨?_, ?_, ?_, ?_, ?_⟩
  · intro s
    unfold cleanResponse
    rw [String.data_append "```terraform\n" s]
    have hd : "```terraform\n".data =
        ['\x60', '\x60', '\x60', 't', 'e', 'r', 'r', 'a', 'f', 'o', 'r', 'm', '\n'] := rfl
    rw [hd]
    simp only [List.cons_append, List.nil_append]
    rw [stripTagFence_drop_terraform]
  · intro s
    unfold cleanResponse
    rw [String.data_append "```hcl\n" s]
    have hd : "```hcl\n".data = ['\x60', '\x60', '\x60', 'h', 'c', 'l', '\n'] := rfl
    rw [hd]
    simp only [List.cons_append, List.nil_append]
    rw [stripTagFence_drop_hcl]
  · intro s
    unfold cleanResponse
    rw [String.data_append "```tf\n" s]
    have hd : "```tf\n".data = ['\x60', '\x60', '\x60', 't', 'f', '\n'] := rfl
    rw [hd]
    simp only [List.cons_append, List.nil_append]
    rw [stripTagFence_drop_tf]
  · intro s
    unfold cleanResponse
    rw [String.data_append "```\n" s]
    have hd : "```\n".data = ['\x60', '\x60', '\x60', '\n'] := rfl
    rw [hd]
    simp only [List.cons_append, List.nil_append]
    rw [stripTagFence_drop_nl]
  · intro s
    unfold cleanResponse
    exact hasTicks_stripTicks (stripTagFence s.data)

/-- C9: `extract_file_content` is a total, deterministic Lean function of
the response text; its mapping is empty exactly when the primary `FILE:`
grammar and the fallback path-colon grammar both recover zero segments
from the cleaned text; in exactly that case the raw input is preserved
verbatim at the diagnostic location (and the caller sees the empty
mapping), and on a non-empty mapping nothing is preserved. -/
theorem extraction_empty_iff_no_segments (response : String) :
    ((extract_file_content response).files = [] ↔
      primScan (cleanResponse response).data = [] ∧
        fbScan (cleanResponse response).data = [])
    ∧ ((extract_file_content response).files = [] →
        (extract_file_content response).debugSaved = some response)
    ∧ ((extract_file_content response).files ≠ [] →
        (extract_file_content response).debugSaved = none) := by
  have hfiles : (extract_file_content response).files =
      (if (primScan (cleanResponse response).data).isEmpty then
        fbScan (cleanResponse response).data
      else primScan (cleanResponse response).data).foldl extractStep [] := rfl
  refine ⟨?_, ?_, ?_⟩
  · rw [hfiles, extractStep_foldl_nil]
    cases hp : primScan (cleanResponse response).data with
    | nil => simp [hp]
    | cons a rest =>
      simp only [hp, List.isEmpty_cons, if_neg]
      constructor
      · rintro ⟨-, h⟩
        exact absurd h (by simp)
      · rintro ⟨h, -⟩
        exact absurd h (by simp)
  · intro h
    show (if (extract_file_content response).files.isEmpty
        then some response else none) = some response
    rw [h]
    rfl
  · intro h
    show (if (extract_file_content response).files.isEmpty
        then some response else none) = none
    rw [if_neg (by simpa using h)]

/-- Witness for C9: a reply with no recognisable marker of either
grammar yields the empty mapping and preserves the raw reply. -/
theorem extraction_empty_iff_no_segments_witness :
    (extract_file_content "no markers here").files = [] ∧
      (extract_file_content "no markers here").debugSaved = some "no markers here" :=
  have h : (extract_file_content "no markers here").files = [] :=
    (extraction_empty_iff_no_segments "no markers here").1.mpr (by decide)
  ⟨h, (extraction_empty_iff_no_segments "no markers here").2.1 h⟩
